import Mathlib

/-!
Verification of the parallel command applicator (src/parallel/apply.py).

Shallow embedding conventions:
- Python byte strings are lists of naturals (one per byte); newline is byte 10.
- Python text strings are Lean strings or lists of characters.
- Python sets of signal numbers are finite sets of naturals.
- Fallible Python code (exceptions) is embedded with Option / Except.
- Wall-clock instants are naturals; a Python timestamp is never 0.0, so the
  truthiness test on a kill time is modelled by Option.isSome.
-/

/-! ## Interpolator (apply.py, Interpolate and the placeholder maps) -/

/-- Python str.split() splits on runs of whitespace and drops empty fields. -/
def pySplitWs (l : List Char) : List (List Char) :=
  (l.splitOnP (fun c => c = ' ' || c = '\t' || c = '\n' || c = '\r' ||
      c = Char.ofNat 11 || c = Char.ofNat 12)).filter (fun f => !f.isEmpty)

/-- Python str.rfind(ch): index of the last occurrence, or -1. -/
def rfindI (ch : Char) (l : List Char) : Int :=
  l.enum.foldl (fun acc p => if p.2 = ch then (p.1 : Int) else acc) (-1)

/-- posixpath.basename: the part after the last slash. -/
def pyBasename (l : List Char) : List Char :=
  l.foldl (fun acc c => if c = '/' then [] else acc ++ [c]) []

/-- Drop trailing slashes (str.rstrip with a slash argument). -/
def dropTrailingSlashes (l : List Char) : List Char :=
  (l.reverse.dropWhile (fun c => c = '/')).reverse

/-- posixpath.dirname: the head before the last slash, with trailing slashes
stripped unless the head is all slashes. -/
def pyDirname (l : List Char) : List Char :=
  let tail := (l.reverse.takeWhile (fun c => c ≠ '/')).reverse
  let head := l.take (l.length - tail.length)
  if head ≠ [] ∧ head.any (fun c => c ≠ '/') then dropTrailingSlashes head else head

/-- posixpath.splitext: split off the extension at the last dot of the final
component, unless the component consists only of leading dots up to there. -/
def pySplitext (l : List Char) : List Char × List Char :=
  let sepIndex := rfindI '/' l
  let dotIndex := rfindI '.' l
  if sepIndex < dotIndex then
    if (l.enum.filter (fun p =>
        sepIndex < (p.1 : Int) ∧ (p.1 : Int) < dotIndex ∧ p.2 ≠ '.')) ≠ [] then
      (l.take dotIndex.toNat, l.drop dotIndex.toNat)
    else (l, [])
  else (l, [])

/-- ARG_MAP entry: whitespace field number i of the item; none models the
IndexError raised when the field list is too short. -/
def argFun (i : Nat) (s : String) : Option String :=
  ((pySplitWs s.data).get? i).map (fun f => String.mk f)

/-- A placeholder map sends a character to its item function when present;
the item function returns none where the Python function raises IndexError. -/
def ARG_MAP : Char → Option (String → Option String) := fun c =>
  match c with
  | '0' => some (argFun 0)
  | '1' => some (argFun 1)
  | '2' => some (argFun 2)
  | '3' => some (argFun 3)
  | '4' => some (argFun 4)
  | '5' => some (argFun 5)
  | '6' => some (argFun 6)
  | '7' => some (argFun 7)
  | _ => none

def PATH_MAP : Char → Option (String → Option String) := fun c =>
  match c with
  | 'P' => some (fun s => some s)
  | 'B' => some (fun s => some (String.mk (pySplitext s.data).1))
  | 'D' => some (fun s => some (String.mk (pyDirname s.data)))
  | 'F' => some (fun s => some (String.mk (pyBasename s.data)))
  | 'N' => some (fun s => some (String.mk (pySplitext (pyBasename s.data)).1))
  | 'E' => some (fun s => some (String.mk (pySplitext (pyBasename s.data)).2))
  | _ => none

def MACH_MAP : Char → Option (String → Option String) := fun c =>
  match c with
  | 'M' => some (fun s => some s)
  | _ => none

def NULL_MAP : Char → Option (String → Option String) := fun _ => none

/-- The Interpolate loop of apply.py over the template characters.
Copying the characters up to the found percent one at a time is the same as
copying the slice text between pos and loc at once; a percent as the very
last character (loc at len - 1) breaks out and is appended verbatim; a
percent followed by a percent emits one percent and breaks, appending the
remainder verbatim; an unknown key raises UnknownInterpolation (error);
an IndexError from the item function drops the placeholder. -/
def interpolate (mapd : Char → Option (String → Option String)) (value : String) :
    List Char → Except Unit (List Char)
  | [] => .ok []
  | c :: rest =>
    if c = '%' then
      match rest with
      | [] => .ok ['%']
      | d :: rest2 =>
        if d = '%' then .ok ('%' :: rest2)
        else
          match mapd d with
          | none => .error ()
          | some f =>
            match f value with
            | none => interpolate mapd value rest2
            | some s => (interpolate mapd value rest2).map (fun r => s.data ++ r)
    else (interpolate mapd value rest).map (fun r => c :: r)

/-! ## Line Buffer (apply.py, Process._AddOutput) -/

/-- Python bytes.split on the newline byte: always returns a nonempty list of
fragments, with an empty fragment between adjacent newlines and at the ends. -/
def splitNl : List Nat → List (List Nat)
  | [] => [[]]
  | b :: rest =>
    match splitNl rest with
    | [] => [[]]
    | h :: t => if b = 10 then [] :: h :: t else (b :: h) :: t

/-- The per-stream slice of a Process: the partial-line buffer and the payloads
of the completed Lines appended to outdata for this stream, in order.  The Line
records of the source also carry the stream kind and a wall-clock timestamp;
the claims are about the payload sequence, so only payloads are kept. -/
structure LineBuf where
  leftover : List Nat
  lines : List (List Nat)
deriving DecidableEq

/-- The common tail of _AddOutput after the partial-line merge: the last
fragment becomes the new partial (the source only assigns it when it is
nonempty, but at this point the partial is empty, so the assignment is the
same as taking the last fragment unconditionally), and the remaining
fragments are appended to outdata in order. -/
def finishLines (st : LineBuf) (ls : List (List Nat)) : LineBuf × Bool :=
  ({ leftover := ls.getLastD [], lines := st.lines ++ ls.dropLast }, true)

/-- Process._AddOutput for one stream: empty data returns False with no state
change; otherwise the data is split on newlines, the first fragment extends a
nonempty partial (completing it as a Line when there are further fragments,
else returning early), and the rest is handled by finishLines. -/
def addOutput (st : LineBuf) (data : List Nat) : LineBuf × Bool :=
  if data = [] then (st, false)
  else
    match splitNl data with
    | [] => (st, true)
    | l0 :: ls =>
      if st.leftover = [] then finishLines st (l0 :: ls)
      else if ls = [] then ({ st with leftover := st.leftover ++ l0 }, true)
      else finishLines { leftover := [], lines := st.lines ++ [st.leftover ++ l0] } ls

/-- Reference byte-at-a-time feed used to prove split invariance: a newline
completes the current partial as a line, any other byte extends the partial. -/
def feed1 (st : LineBuf) (b : Nat) : LineBuf :=
  if b = 10 then { leftover := [], lines := st.lines ++ [st.leftover] }
  else { st with leftover := st.leftover ++ [b] }

def feedAll (st : LineBuf) (data : List Nat) : LineBuf := data.foldl feed1 st

/-- Feeding a list of chunks one _AddOutput call at a time. -/
def feedChunks (st : LineBuf) (chunks : List (List Nat)) : LineBuf :=
  chunks.foldl (fun s c => (addOutput s c).1) st

/-! ## Process stream polling (apply.py, Process._GetOutput, _GetBothOutputs, Poll) -/

/-- The output-side state of a live Process: the chunks its nonblocking reads
will return on stdout and stderr (an empty pending list models a read that
finds no data), the two line buffers, and the trace of streams on which a
read was attempted (0 stdout, 1 stderr). -/
structure ProcStreams where
  pend0 : List (List Nat)
  pend1 : List (List Nat)
  buf0 : LineBuf
  buf1 : LineBuf
  attempts : List Nat
deriving DecidableEq

/-- Process._GetOutput: one nonblocking read on the chosen stream, fed to
_AddOutput; a read that finds no data (or raises IOError) returns False. -/
def getOutput (iserr : Bool) (p : ProcStreams) : Bool × ProcStreams :=
  if iserr then
    let p := { p with attempts := p.attempts ++ [1] }
    match p.pend1 with
    | [] => (false, p)
    | d :: rest =>
      let r := addOutput p.buf1 d
      (r.2, { p with pend1 := rest, buf1 := r.1 })
  else
    let p := { p with attempts := p.attempts ++ [0] }
    match p.pend0 with
    | [] => (false, p)
    | d :: rest =>
      let r := addOutput p.buf0 d
      (r.2, { p with pend0 := rest, buf0 := r.1 })

/-- Process._GetBothOutputs: self._GetOutput(0) or self._GetOutput(1); the
Python or operator short-circuits, so the stderr read only happens when the
stdout read produced nothing. -/
def getBothOutputs (p : ProcStreams) : Bool × ProcStreams :=
  let r0 := getOutput false p
  if r0.1 then (true, r0.2) else getOutput true r0.2

/-- Whether the next read on a pending-chunk list yields data. -/
def yields : List (List Nat) → Bool
  | [] => false
  | d :: _ => !d.isEmpty

/-! ## Escalation state (apply.py, Process.SetKill and the data-result step) -/

/-- The killed field is False, True, or a timestamp (set when the post-kill
grace expires).  A Python timestamp is nonzero, so both non-no states are
truthy. -/
inductive Killed
  | no
  | yes
  | ts (t : Nat)
deriving DecidableEq

def Killed.truthy : Killed → Bool
  | .no => false
  | _ => true

def KILL_DELAY : Nat := 7
def KILL_TIMEOUT : Nat := 3

/-- The escalation slice of a Process: kill_time (none while unarmed) and the
killed field. -/
structure ProcKill where
  kill_time : Option Nat
  killed : Killed
deriving DecidableEq

/-- Process.SetKill: a killed process is left untouched; otherwise a non-final
call arms or re-arms the warning timer and a final call marks the process
killed and arms the shorter post-kill grace timer. -/
def setKill (p : ProcKill) (now : Nat) (final : Bool) : ProcKill :=
  if p.killed.truthy then p
  else if final then { killed := .yes, kill_time := some (now + KILL_TIMEOUT) }
  else { p with kill_time := some (now + KILL_DELAY) }

/-- The data-result step of the supervisor loop for one child (apply.py main,
the ret is True branch): when the kill timer is armed, SetKill(final=False)
is invoked to reset it. -/
def onDataStep (p : ProcKill) (now : Nat) : ProcKill :=
  if p.kill_time.isSome then setKill p now false else p

/-! ## Signal forwarding batch (apply.py main, the sigs_rcvd drain) -/

/-- Python sets of signal numbers are embedded as duplicate-free lists; the
membership set they denote is what matters, the list order standing in for the
arbitrary iteration order of a Python set. -/
def sigDiff (a b : List Nat) : List Nat := a.filter (fun x => !(b.contains x))

def sigUnion (a b : List Nat) : List Nat := a ++ b.filter (fun x => !(a.contains x))

/-- SIG_WAIT is the set of SIGUSR1 and SIGUSR2 (Linux numbers 10 and 12; the
exact numbers play no role in the claims). -/
def SIG_WAIT : List Nat := [10, 12]

/-- The escalate flag of one batch: parsed.signal_test or sigs_sent - SIG_WAIT,
where Python takes the truthiness (nonemptiness) of the set difference. -/
def setKillFlag (signalTest : Bool) (sigsSent : List Nat) : Bool :=
  signalTest || !(sigDiff sigsSent SIG_WAIT).isEmpty

/-- One proc.Signal(sig, set_kill) invocation recorded by the batch. -/
structure SigCall where
  procIdx : Nat
  sig : Nat
  set_kill : Bool
deriving DecidableEq

/-- The signal-forwarding batch at the top of the supervisor loop: the signals
to send are those received but not yet sent; the escalate flag is computed
once, before any are sent, and passed to every Signal call for every live
child; sigs_sent is then updated. -/
def forwardBatch (signalTest : Bool) (sigsRcvd sigsSent : List Nat)
    (procs : List Nat) : List SigCall × List Nat :=
  let sigsToSend := sigDiff sigsRcvd sigsSent
  let sk := setKillFlag signalTest sigsSent
  (sigsToSend.flatMap (fun s => procs.map (fun p => ⟨p, s, sk⟩)),
   sigUnion sigsSent sigsToSend)

/-! ## Interruptible poll (apply.py, Poller.poll and Poller._SignalHandler) -/

/-- The asynchronous environment of one Poller.poll invocation: what the short
phase-1 poll reports, which supervised signals are delivered at each program
point, and what the real bounded poll would report if it completes.  The
handler runs at these representative points: while blocked in the 1 ms poll
(interruptible is false, so it only records), after phase 1 returns empty but
before interruptible is set (records only), and while blocked in the real
poll (interruptible is true, so it records and raises SignalInterrupt). -/
structure PollEnv where
  phase1Ready : List (Nat × Nat)
  sigsPhase1 : List Nat
  sigsPreInt : List Nat
  realInterrupted : Bool
  realSig : Nat
  realReady : List (Nat × Nat)
deriving DecidableEq

/-- The process-wide Poller class state. -/
structure PollerSt where
  sigs_rcvd : List Nat
  interruptible : Bool
deriving DecidableEq

/-- The outcome of one Poller.poll invocation; realPollEntered records whether
the bounded self.poller.poll(timeout) call was reached. -/
structure PollOut where
  st : PollerSt
  result : List (Nat × Nat)
  realPollEntered : Bool
deriving DecidableEq

/-- Poller.poll.  The binding cur_sigs = cls.sigs_rcvd does not copy the set:
both names are bound to the same set object, and the handler updates it in
place (the augmented union on a set calls its in-place union).  At the
comparison below, cur_sigs and cls.sigs_rcvd therefore denote the same
current contents, so the comparison is between a value and itself. -/
def pollerPoll (st : PollerSt) (env : PollEnv) : PollOut :=
  let sigs1 := sigUnion st.sigs_rcvd env.sigsPhase1
  if env.phase1Ready ≠ [] then ⟨⟨sigs1, st.interruptible⟩, env.phase1Ready, false⟩
  else
    let sigs2 := sigUnion sigs1 env.sigsPreInt
    if sigs2 = sigs2 then
      if env.realInterrupted then ⟨⟨sigUnion sigs2 [env.realSig], false⟩, [], true⟩
      else ⟨⟨sigs2, false⟩, env.realReady, true⟩
    else ⟨⟨sigs2, false⟩, [], false⟩

/-! ## Exit-code aggregation (apply.py main, the exit-code branch) -/

/-- The retval update for one completed child: the source only compares when
the Returned diagnostic is printed, that is when the code is nonzero or the
verbose or times flag is on; a Python returncode is negative when the child
died on a signal. -/
def updateRetval (verbose times : Bool) (retval ret : Int) : Int :=
  if ret ≠ 0 ∨ verbose ∨ times then (if ret > retval then ret else retval)
  else retval

/-- The aggregate over the completed children, in completion order, starting
from the initial retval of 0. -/
def loopRetval (verbose times : Bool) (codes : List Int) : Int :=
  codes.foldl (updateRetval verbose times) 0

/-- The supervisor return value: 999 when abandonment fired (the break that
discards the aggregate), else the loop aggregate. -/
def finalRetval (verbose times : Bool) (codes : List Int) (abandoned : Bool) : Int :=
  if abandoned then 999 else loopRetval verbose times codes

/-! ## Fallback poller (apply.py, PollCompat) and its native counterpart -/

def C_POLLIN : Nat := 1
def C_POLLPRI : Nat := 2
def C_POLLOUT : Nat := 4

/-- Association-list lookup for the registry and result dictionaries. -/
def alookup : List (Nat × Nat) → Nat → Option Nat
  | [], _ => none
  | (k, v) :: rest, fd => if fd = k then some v else alookup rest fd

/-- Python dict assignment: overwrite in place, else append (insertion order). -/
def aset : List (Nat × Nat) → Nat → Nat → List (Nat × Nat)
  | [], k, v => [(k, v)]
  | (k0, v0) :: rest, k, v =>
    if k0 = k then (k, v) :: rest else (k0, v0) :: aset rest k v

/-- Python del dict entry. -/
def aremove : List (Nat × Nat) → Nat → List (Nat × Nat)
  | [], _ => []
  | (k0, v0) :: rest, k => if k0 = k then rest else (k0, v0) :: aremove rest k

/-- Set insertion for the rset, wset, xset lists. -/
def sinsert (l : List Nat) (x : Nat) : List Nat := if x ∈ l then l else l ++ [x]

/-- PollCompat state: the registry dict and the three event sets.  The lists
attribute of the source holds copies of the sets rebuilt after each operation,
so poll reads exactly the sets as they stand; the embedding keeps the sets
only.  The source builds setmap from zip once, which under Python 2 is the
persistent pairing of event bits with sets used here (under Python 3 the zip
iterator would be exhausted after the first use). -/
structure PollCompat where
  registry : List (Nat × Nat)
  rset : List Nat
  wset : List Nat
  xset : List Nat
deriving DecidableEq

def pcInit : PollCompat := ⟨[], [], [], []⟩

/-- PollCompat.register: store the mask and add the fd to the set of every
bit in the mask. -/
def pcRegister (st : PollCompat) (fd mask : Nat) : PollCompat :=
  { registry := aset st.registry fd mask
    rset := if mask &&& C_POLLIN ≠ 0 then sinsert st.rset fd else st.rset
    wset := if mask &&& C_POLLOUT ≠ 0 then sinsert st.wset fd else st.wset
    xset := if mask &&& C_POLLPRI ≠ 0 then sinsert st.xset fd else st.xset }

/-- PollCompat.unregister: none models the KeyError on an unknown fd. -/
def pcUnregister (st : PollCompat) (fd : Nat) : Option PollCompat :=
  match alookup st.registry fd with
  | none => none
  | some mask => some
    { registry := aremove st.registry fd
      rset := if mask &&& C_POLLIN ≠ 0 then st.rset.erase fd else st.rset
      wset := if mask &&& C_POLLOUT ≠ 0 then st.wset.erase fd else st.wset
      xset := if mask &&& C_POLLPRI ≠ 0 then st.xset.erase fd else st.xset }

/-- PollCompat.modify: unregister then register (none models the IOError the
source raises in place of the KeyError). -/
def pcModify (st : PollCompat) (fd mask : Nat) : Option PollCompat :=
  (pcUnregister st fd).map (fun st2 => pcRegister st2 fd mask)

/-- One resdict step: resdict.setdefault(fd, 0) followed by an or of the bit. -/
def addRes (acc : List (Nat × Nat)) (bit fd : Nat) : List (Nat × Nat) :=
  match alookup acc fd with
  | none => acc ++ [(fd, bit)]
  | some v => aset acc fd (v ||| bit)

/-- The readiness pairs PollCompat.poll builds when select returns: select is
called on the three lists in (read, write, priority) order and found is zipped
against the bits in the same order.  The environment function ready gives, for
each fd, the bitmask of conditions that actually hold on it. -/
def pcPollOk (st : PollCompat) (ready : Nat → Nat) : List (Nat × Nat) :=
  let foundR := st.rset.filter (fun fd => ready fd &&& C_POLLIN != 0)
  let foundW := st.wset.filter (fun fd => ready fd &&& C_POLLOUT != 0)
  let foundX := st.xset.filter (fun fd => ready fd &&& C_POLLPRI != 0)
  foundX.foldl (fun acc fd => addRes acc C_POLLPRI fd)
    (foundW.foldl (fun acc fd => addRes acc C_POLLOUT fd)
      (foundR.foldl (fun acc fd => addRes acc C_POLLIN fd) []))

/-- PollCompat.poll.  The conditional expression in the source parses as
(self.lists + [timeout / 1000.0]) if timeout else [], so a falsy timeout
(None, or 0) calls select.select() with no arguments at all, which raises
TypeError: that is the error result.  A truthy timeout calls select on the
three lists with the timeout converted to seconds. -/
def pcPoll (st : PollCompat) (ready : Nat → Nat) (timeout : Option Nat) :
    Except Unit (List (Nat × Nat)) :=
  match timeout with
  | none => .error ()
  | some 0 => .error ()
  | some _ => .ok (pcPollOk st ready)

/-- Modelled from the spec: the native poll object that PollCompat stands in
for (select.poll is outside this repository).  Registered fds report the
intersection of their registered mask with the conditions that hold; fds with
no ready registered condition are absent; any timeout value, including an
absent or zero one, is accepted. -/
def nativePollOk (registry : List (Nat × Nat)) (ready : Nat → Nat) :
    List (Nat × Nat) :=
  (registry.filter (fun p => p.2 &&& ready p.1 != 0)).map
    (fun p => (p.1, p.2 &&& ready p.1))

/-- Modelled from the spec: the native poll call never raises on any timeout
argument; with a falsy timeout it blocks indefinitely (None) or returns
immediately (0), in both cases eventually returning the ready pairs. -/
def nativePoll (registry : List (Nat × Nat)) (ready : Nat → Nat)
    (timeout : Option Nat) : Except Unit (List (Nat × Nat)) :=
  match timeout with
  | _ => .ok (nativePollOk registry ready)

/-- The operations a client may perform between polls. -/
inductive PCOp
  | reg (fd mask : Nat)
  | mod (fd mask : Nat)
  | unreg (fd : Nat)

/-- Run a sequence of operations from a state, enforcing the side conditions
of the amended claim: a register call only on a not-currently-registered fd,
and masks confined to the three event bits.  The operations themselves are the
source-derived ones. -/
def validRun : PollCompat → List PCOp → Option PollCompat
  | st, [] => some st
  | st, .reg fd mask :: rest =>
    if alookup st.registry fd = none ∧ mask < 8 then
      validRun (pcRegister st fd mask) rest
    else none
  | st, .mod fd mask :: rest =>
    if mask < 8 then (pcModify st fd mask).bind (fun st2 => validRun st2 rest)
    else none
  | st, .unreg fd :: rest =>
    (pcUnregister st fd).bind (fun st2 => validRun st2 rest)

/-- Whether the registered mask of fd has the given bit (false when fd is not
registered). -/
def maskBitAt (st : PollCompat) (fd bit : Nat) : Bool :=
  match alookup st.registry fd with
  | some m => m &&& bit != 0
  | none => false

/-- The well-formedness invariant of a PollCompat state: registry keys are
unique, the three sets are duplicate-free, all masks fit in the three event
bits, and each set holds exactly the registered fds whose mask has its bit. -/
def PCInv (st : PollCompat) : Prop :=
  (st.registry.map Prod.fst).Nodup ∧
  st.rset.Nodup ∧ st.wset.Nodup ∧ st.xset.Nodup ∧
  (∀ p ∈ st.registry, p.2 < 8) ∧
  (∀ fd ∈ st.rset, maskBitAt st fd C_POLLIN = true) ∧
  (∀ p ∈ st.registry, p.2 &&& C_POLLIN ≠ 0 → p.1 ∈ st.rset) ∧
  (∀ fd ∈ st.wset, maskBitAt st fd C_POLLOUT = true) ∧
  (∀ p ∈ st.registry, p.2 &&& C_POLLOUT ≠ 0 → p.1 ∈ st.wset) ∧
  (∀ fd ∈ st.xset, maskBitAt st fd C_POLLPRI = true) ∧
  (∀ p ∈ st.registry, p.2 &&& C_POLLPRI ≠ 0 → p.1 ∈ st.xset)

/-- The per-fd event value the three resdict folds produce, as a function of
the registered mask m and the ready bitmask r. -/
def evtChain (m r : Nat) : Option Nat :=
  let e1 : Option Nat :=
    if m &&& C_POLLIN ≠ 0 ∧ r &&& C_POLLIN ≠ 0
    then some ((none : Option Nat).getD 0 ||| C_POLLIN) else none
  let e2 : Option Nat :=
    if m &&& C_POLLOUT ≠ 0 ∧ r &&& C_POLLOUT ≠ 0
    then some (e1.getD 0 ||| C_POLLOUT) else e1
  if m &&& C_POLLPRI ≠ 0 ∧ r &&& C_POLLPRI ≠ 0
  then some (e2.getD 0 ||| C_POLLPRI) else e2

/-! ## Theorems -/

/-- C4 (part 1 device): interpolation walks over percent-free prefixes. -/
theorem interpolate_copy_prefix
    (mapd : Char → Option (String → Option String)) (value : String)
    (s u : List Char) (hs : '%' ∉ s) (w : List Char)
    (h : interpolate mapd value u = .ok w) :
    interpolate mapd value (s ++ u) = .ok (s ++ w) := by
  induction s with
  | nil => simpa using h
  | cons a s ih =>
    have ha : a ≠ '%' := fun hEq => hs (hEq ▸ List.mem_cons_self a s)
    have hs2 : '%' ∉ s := fun hM => hs (List.mem_cons_of_mem a hM)
    rw [List.cons_append]
    rw [show interpolate mapd value (a :: (s ++ u)) =
        (interpolate mapd value (s ++ u)).map (fun r => a :: r) by
      rw [interpolate.eq_def]; simp [ha]]
    rw [ih hs2]
    rfl

/-- C4: for every template, item and placeholder map, a percent immediately
followed by another percent emits a single literal percent and terminates
scanning, appending the remainder of the template verbatim with no further
interpolation; in particular interpolating the template a-percent-percent-b-
percent-P-c with item X and PATH_MAP yields a-percent-b-percent-P-c. -/
theorem interpolate_double_percent :
    (∀ (mapd : Char → Option (String → Option String)) (value : String)
        (s t : List Char), '%' ∉ s →
      interpolate mapd value (s ++ '%' :: '%' :: t) = .ok (s ++ '%' :: t))
    ∧ interpolate PATH_MAP "X" ['a', '%', '%', 'b', '%', 'P', 'c'] =
        .ok ['a', '%', 'b', '%', 'P', 'c'] := by
  constructor
  · intro mapd value s t hs
    exact interpolate_copy_prefix mapd value s ('%' :: '%' :: t) hs ('%' :: t) rfl
  · rfl

/-- C4 witness: the double-percent rule applied at the concrete template. -/
theorem interpolate_double_percent_witness :
    interpolate PATH_MAP "X" (['a'] ++ '%' :: '%' :: ['b', '%', 'P', 'c']) =
      .ok (['a'] ++ '%' :: ['b', '%', 'P', 'c']) :=
  interpolate_double_percent.1 PATH_MAP "X" ['a'] ['b', '%', 'P', 'c'] (by decide)

/-- C9: a placeholder whose key is present in the map but whose item function
raises an out-of-range error expands to the empty string and interpolation of
the rest continues; in particular, for every item whose whitespace field list
has at most three fields, interpolating percent-3 under ARG_MAP yields the
empty string. -/
theorem interpolate_index_error_empty :
    (∀ (mapd : Char → Option (String → Option String)) (value : String)
        (c : Char) (f : String → Option String) (rest : List Char),
      c ≠ '%' → mapd c = some f → f value = none →
      interpolate mapd value ('%' :: c :: rest) = interpolate mapd value rest)
    ∧ (∀ item : String, (pySplitWs item.data).length ≤ 3 →
        interpolate ARG_MAP item ['%', '3'] = .ok []) := by
  constructor
  · intro mapd value c f rest hc hm hf
    rw [interpolate.eq_def]
    simp [hc, hm, hf]
  · intro item h
    have h3 : (pySplitWs item.data)[3]? = none := List.getElem?_eq_none h
    rw [show interpolate ARG_MAP item ['%', '3'] = interpolate ARG_MAP item [] by
      rw [interpolate.eq_def]
      simp [ARG_MAP, argFun, h3]]
    rfl

/-- C9 witness: the out-of-range placeholder at the concrete two-field item. -/
theorem interpolate_index_error_empty_witness :
    interpolate ARG_MAP "a b" ['%', '3'] = .ok [] :=
  interpolate_index_error_empty.2 "a b" (by decide)

/-- The batch escalate flag is true exactly when signal-test mode is on or a
signal outside SIG_WAIT was already sent. -/
theorem setKillFlag_true_iff (signalTest : Bool) (sent : List Nat) :
    setKillFlag signalTest sent = true ↔
      (signalTest = true ∨ ∃ s ∈ sent, s ∉ SIG_WAIT) := by
  simp only [setKillFlag, Bool.or_eq_true, Bool.not_eq_true']
  constructor
  · rintro (h | h)
    · exact Or.inl h
    · right
      rcases List.exists_mem_of_ne_nil _ (by simpa [List.isEmpty_iff] using h) with ⟨x, hx⟩
      have hx2 : x ∈ sent ∧ x ∉ SIG_WAIT := by simpa [sigDiff] using hx
      exact ⟨x, hx2.1, hx2.2⟩
  · rintro (h | ⟨x, hx, hxw⟩)
    · exact Or.inl h
    · right
      have hmem : x ∈ sigDiff sent SIG_WAIT := by
        simp [sigDiff, List.mem_filter, hx, hxw]
      simp [List.isEmpty_iff]
      exact List.ne_nil_of_mem hmem

/-- C1: in each signal-forwarding batch, the escalate flag (set_kill) passed
to every Signal call of every live child is true iff signal-test mode is
enabled or at least one signal outside SIG_WAIT was already sent before this
batch; in particular signals confined to SIG_WAIT leave the flag false and a
previously sent non-wait signal forces it true. -/
theorem forwardBatch_escalate_iff (signalTest : Bool)
    (rcvd sent procs : List Nat) :
    (∀ c ∈ (forwardBatch signalTest rcvd sent procs).1,
        (c.set_kill = true ↔ (signalTest = true ∨ ∃ s ∈ sent, s ∉ SIG_WAIT)))
    ∧ (signalTest = false → (∀ s ∈ sent, s ∈ SIG_WAIT) →
        ∀ c ∈ (forwardBatch signalTest rcvd sent procs).1, c.set_kill = false)
    ∧ ((∃ s ∈ sent, s ∉ SIG_WAIT) →
        ∀ c ∈ (forwardBatch signalTest rcvd sent procs).1, c.set_kill = true) := by
  have hsk : ∀ c ∈ (forwardBatch signalTest rcvd sent procs).1,
      c.set_kill = setKillFlag signalTest sent := by
    intro c hc
    simp only [forwardBatch, List.mem_flatMap, List.mem_map] at hc
    obtain ⟨s, _, p, _, rfl⟩ := hc
    rfl
  refine ⟨?_, ?_, ?_⟩
  · intro c hc
    rw [hsk c hc]
    exact setKillFlag_true_iff signalTest sent
  · intro hst hw c hc
    rw [hsk c hc]
    rcases h : setKillFlag signalTest sent with _ | _
    · rfl
    · exfalso
      rcases (setKillFlag_true_iff signalTest sent).mp h with h1 | ⟨s, hs, hsw⟩
      · rw [hst] at h1; cases h1
      · exact hsw (hw s hs)
  · intro hex c hc
    rw [hsk c hc]
    exact (setKillFlag_true_iff signalTest sent).mpr (Or.inr hex)

/-- C1 witness: with SIGINT already sent, the next batch escalates the call
with SIGTERM to child 0. -/
theorem forwardBatch_escalate_iff_witness :
    (⟨0, 15, true⟩ : SigCall).set_kill = true :=
  ((forwardBatch_escalate_iff false [2, 15] [2] [0]).1 ⟨0, 15, true⟩
      (by decide)).mpr (Or.inr ⟨2, by decide, by decide⟩)

/-- The update actually performed on the aggregate, rewritten as a maximum:
possible because the aggregate never goes below its initial 0. -/
theorem foldl_updateRetval_eq_max (verbose times : Bool) :
    ∀ (codes : List Int) (r : Int), 0 ≤ r →
      codes.foldl (updateRetval verbose times) r = codes.foldl max r := by
  intro codes
  induction codes with
  | nil => intro r _; rfl
  | cons c cs ih =>
    intro r hr
    have hstep : updateRetval verbose times r c = max r c := by
      unfold updateRetval
      by_cases h : c ≠ 0 ∨ verbose = true ∨ times = true
      · rw [if_pos h]
        rcases le_total c r with hle | hle
        · rw [if_neg (by omega), max_eq_left hle]
        · rcases lt_or_eq_of_le hle with hlt | hEq
          · rw [if_pos hlt, max_eq_right hle]
          · rw [hEq, if_neg (by omega), max_self]
      · rw [if_neg h]
        push_neg at h
        rw [h.1, max_eq_left hr]
    rw [List.foldl_cons, List.foldl_cons, hstep, ih (max r c) (le_trans hr (le_max_left r c))]

/-- C2 counterexample: a single child that died on SIGTERM has Python
returncode -15, so the maximum of the child codes is -15, but the supervisor
returns 0: the aggregate is not the maximum of the child exit codes. -/
theorem finalRetval_negative_code_counterexample :
    finalRetval false false [-15] false = 0 ∧
    ([-15] : List Int).maximum = some (-15) ∧
    (0 : Int) ≠ -15 := by
  refine ⟨rfl, ?_, by decide⟩
  decide

/-- C2 amended: the supervisor aggregate equals the maximum of 0 and the
child exit codes (a negative signal-death code never lowers it), except that
abandonment forces 999; with all codes nonnegative this is the stated
maximum of the child codes. -/
theorem finalRetval_eq_clamped_max (verbose times : Bool) (codes : List Int)
    (abandoned : Bool) :
    finalRetval verbose times codes abandoned =
      if abandoned then 999 else codes.foldl max 0 := by
  unfold finalRetval loopRetval
  cases abandoned
  · simpa using foldl_updateRetval_eq_max verbose times codes 0 le_rfl
  · rfl

/-- C8 counterexample: a child already in the killed state (killed truthy,
grace timer at 5) that produces output at time 10 keeps kill_time 5: the
timer is not re-armed to now plus KILL_DELAY, because SetKill returns early
once killed. -/
theorem onDataStep_killed_counterexample :
    (⟨some 5, Killed.yes⟩ : ProcKill).kill_time.isSome = true ∧
    (onDataStep ⟨some 5, Killed.yes⟩ 10).kill_time = some 5 ∧
    some 5 ≠ some (10 + KILL_DELAY) := by
  exact ⟨rfl, rfl, by decide⟩

/-- C8 amended: a child that produces output while its kill timer is armed
has the timer re-armed to now plus KILL_DELAY, provided it has not already
been killed; a killed child keeps both fields unchanged. -/
theorem onDataStep_rearm (p : ProcKill) (now : Nat)
    (harmed : p.kill_time.isSome = true) (hk : p.killed = Killed.no) :
    (onDataStep p now).kill_time = some (now + KILL_DELAY) := by
  unfold onDataStep setKill
  rw [if_pos harmed, hk]
  rfl

/-- C8 amended witness: an armed, not-killed child at time 1. -/
theorem onDataStep_rearm_witness :
    (onDataStep ⟨some 3, Killed.no⟩ 1).kill_time = some (1 + KILL_DELAY) :=
  onDataStep_rearm ⟨some 3, Killed.no⟩ 1 rfl rfl

/-- C10: the killed state is absorbing: once the killed field is truthy
(True or a timestamp), every later SetKill call, final or not, and in
particular the reset attempted on new output, leaves the killed field and the
kill_time field unchanged. -/
theorem setKill_absorbing (p : ProcKill) (now : Nat) (final : Bool)
    (h : p.killed.truthy = true) :
    setKill p now final = p ∧
    (setKill p now final).killed = p.killed ∧
    (setKill p now final).kill_time = p.kill_time ∧
    onDataStep p now = p := by
  have hsk : setKill p now final = p := by
    unfold setKill
    rw [if_pos h]
  have hskf : setKill p now false = p := by
    unfold setKill
    rw [if_pos h]
  refine ⟨hsk, by rw [hsk], by rw [hsk], ?_⟩
  unfold onDataStep
  split
  · exact hskf
  · rfl

/-- C10 witness: a killed child with grace timer 5 at time 10 under a final
SetKill. -/
theorem setKill_absorbing_witness :
    setKill ⟨some 5, Killed.yes⟩ 10 true = ⟨some 5, Killed.yes⟩ ∧
    (setKill ⟨some 5, Killed.yes⟩ 10 true).killed = Killed.yes ∧
    (setKill ⟨some 5, Killed.yes⟩ 10 true).kill_time = some 5 ∧
    onDataStep ⟨some 5, Killed.yes⟩ 10 = ⟨some 5, Killed.yes⟩ :=
  setKill_absorbing ⟨some 5, Killed.yes⟩ 10 true rfl

/-- C6: evaluating Poller.poll at the failing input: the short phase-1 poll
returns nothing and SIGTERM (15) is delivered after phase 1 completes and
before interruptible is set, so the received-signal set differs from every
earlier snapshot; the real bounded poll is nonetheless entered and its
result returned (not skipped with the empty result), because cur_sigs is
bound to the same set object the handler mutates in place, so the guard
comparison can never fail; interruptible is false again on exit. -/
theorem pollerPoll_enters_real_poll_after_signal :
    (pollerPoll ⟨[], false⟩ ⟨[], [], [15], false, 0, [(4, 1)]⟩).realPollEntered
        = true ∧
    (pollerPoll ⟨[], false⟩ ⟨[], [], [15], false, 0, [(4, 1)]⟩).result
        = [(4, 1)] ∧
    (pollerPoll ⟨[], false⟩ ⟨[], [], [15], false, 0, [(4, 1)]⟩).st.sigs_rcvd
        = [15] ∧
    (pollerPoll ⟨[], false⟩ ⟨[], [], [15], false, 0, [(4, 1)]⟩).st.interruptible
        = false := by
  exact ⟨rfl, rfl, rfl, rfl⟩

/-- _AddOutput reports data exactly when the chunk it was handed is nonempty. -/
theorem addOutput_snd (st : LineBuf) (d : List Nat) :
    (addOutput st d).2 = !d.isEmpty := by
  unfold addOutput
  cases d with
  | nil => rfl
  | cons b rest =>
    rw [if_neg (by simp)]
    rcases h : splitNl (b :: rest) with _ | ⟨l0, ls⟩
    · rfl
    · simp only []
      split
      · rfl
      · split
        · rfl
        · rfl

/-- C3 counterexample: with data pending on both streams, one Poll of a live
process attempts a read only on stdout (attempt trace [0]); the stderr read
is skipped by the short-circuit, leaving its pending data in place, contrary
to the claim that a single call attempts a non-blocking read on both
streams. -/
theorem getBothOutputs_skips_stderr :
    (getBothOutputs ⟨[[97]], [[98]], ⟨[], []⟩, ⟨[], []⟩, []⟩).2.attempts
        = [0] ∧
    1 ∉ (getBothOutputs ⟨[[97]], [[98]], ⟨[], []⟩, ⟨[], []⟩, []⟩).2.attempts ∧
    (getBothOutputs ⟨[[97]], [[98]], ⟨[], []⟩, ⟨[], []⟩, []⟩).2.pend1
        = [[98]] := by
  refine ⟨rfl, by decide, rfl⟩

/-- C3 amended: a single data-poll of a live process always attempts a
stdout read, attempts a stderr read only when the stdout read yielded no
data, and returns the data result exactly when an attempted read yielded
data, which coincides with data being available on either stream. -/
theorem getBothOutputs_spec (p : ProcStreams) :
    (getBothOutputs p).1 = (yields p.pend0 || yields p.pend1) ∧
    (getBothOutputs p).2.attempts =
      p.attempts ++ (if yields p.pend0 then [0] else [0, 1]) := by
  unfold getBothOutputs getOutput
  rcases p with ⟨pend0, pend1, buf0, buf1, attempts⟩
  cases pend0 with
  | nil =>
    cases pend1 with
    | nil => simp [yields]
    | cons e es =>
      cases e with
      | nil => simp [yields, addOutput_snd]
      | cons b bs => simp [yields, addOutput_snd]
  | cons d ds =>
    cases d with
    | nil =>
      cases pend1 with
      | nil => simp [yields, addOutput_snd]
      | cons e es =>
        cases e with
        | nil => simp [yields, addOutput_snd]
        | cons b bs => simp [yields, addOutput_snd]
    | cons b bs => simp [yields, addOutput_snd]

/-- One unfolding step of splitNl on a cons. -/
theorem splitNl_cons (b : Nat) (rest : List Nat) :
    splitNl (b :: rest) =
      match splitNl rest with
      | [] => [[]]
      | h :: t => if b = 10 then [] :: h :: t else (b :: h) :: t := rfl

/-- Splitting on newlines never yields an empty fragment list. -/
theorem splitNl_ne_nil (l : List Nat) : splitNl l ≠ [] := by
  cases l with
  | nil => simp [splitNl]
  | cons b rest =>
    rw [splitNl_cons]
    cases hsp : splitNl rest with
    | nil => simp
    | cons h t =>
      show (if b = 10 then [] :: h :: t else (b :: h) :: t) ≠ []
      split <;> simp

/-- One _AddOutput call on a chunk beginning with byte b leaves the same
state as pushing b through the byte-at-a-time reference feed and then
processing the remainder of the chunk. -/
theorem addOutput_cons (st : LineBuf) (b : Nat) (rest : List Nat) :
    (addOutput st (b :: rest)).1 = (addOutput (feed1 st b) rest).1 := by
  cases rest with
  | nil =>
    by_cases hb : b = 10 <;> rcases st with ⟨lft, lns⟩ <;>
      rcases lft with _ | ⟨x, xs⟩ <;>
      simp [addOutput, splitNl, feed1, finishLines, hb]
  | cons r rs =>
    rcases hsp : splitNl (r :: rs) with _ | ⟨h, t⟩
    · exact absurd hsp (splitNl_ne_nil _)
    · by_cases hb : b = 10
      · subst hb
        have hsb : splitNl (10 :: r :: rs) = [] :: h :: t := by
          rw [splitNl_cons, hsp]
          simp
        rcases st with ⟨lft, lns⟩
        rcases lft with _ | ⟨x, xs⟩ <;> rcases t with _ | ⟨t1, ts⟩ <;>
          simp [addOutput, hsb, hsp, feed1, finishLines]
      · have hsb : splitNl (b :: r :: rs) = (b :: h) :: t := by
          rw [splitNl_cons, hsp]
          simp [hb]
        rcases st with ⟨lft, lns⟩
        rcases lft with _ | ⟨x, xs⟩ <;> rcases t with _ | ⟨t1, ts⟩ <;>
          simp [addOutput, hsb, hsp, feed1, finishLines, hb]

/-- _AddOutput agrees with the byte-at-a-time reference feed. -/
theorem addOutput_eq_feedAll (data : List Nat) :
    ∀ st : LineBuf, (addOutput st data).1 = feedAll st data := by
  induction data with
  | nil => intro st; rfl
  | cons b rest ih =>
    intro st
    rw [addOutput_cons]
    exact ih (feed1 st b)

/-- C5: feeding any partition of a byte stream into the line buffer chunk by
chunk yields the same completed line payloads and the same final partial as
feeding the whole stream in a single _AddOutput call. -/
theorem addOutput_split_invariant (st : LineBuf) (chunks : List (List Nat)) :
    feedChunks st chunks = (addOutput st chunks.flatten).1 := by
  rw [addOutput_eq_feedAll]
  induction chunks generalizing st with
  | nil => rfl
  | cons c cs ih =>
    rw [feedChunks, List.foldl_cons]
    rw [show (addOutput st c).1 = feedAll st c from addOutput_eq_feedAll c st]
    rw [show (cs.foldl (fun s c => (addOutput s c).1) (feedAll st c)) =
        feedChunks (feedAll st c) cs from rfl]
    rw [ih (feedAll st c)]
    unfold feedAll
    rw [show (c :: cs).flatten = c ++ cs.flatten from rfl, List.foldl_append]

theorem alookup_aset (k v fd : Nat) :
    ∀ l : List (Nat × Nat),
      alookup (aset l k v) fd = if fd = k then some v else alookup l fd := by
  intro l
  induction l with
  | nil => simp [aset, alookup]
  | cons p rest ih =>
    obtain ⟨k0, v0⟩ := p
    by_cases h0 : k0 = k
    · subst h0
      simp only [aset, if_pos rfl, alookup]
      by_cases h : fd = k0 <;> simp [h]
    · simp only [aset, if_neg h0, alookup, ih]
      by_cases h1 : fd = k0
      · have hk : ¬fd = k := fun hc => h0 (h1.symm.trans hc)
        simp [h1, hk, h0]
      · simp [h1]

theorem alookup_append (l1 l2 : List (Nat × Nat)) (fd : Nat) :
    alookup (l1 ++ l2) fd =
      match alookup l1 fd with
      | some v => some v
      | none => alookup l2 fd := by
  induction l1 with
  | nil => rfl
  | cons p rest ih =>
    obtain ⟨k0, v0⟩ := p
    by_cases h : fd = k0
    · simp [alookup, h]
    · simp only [List.cons_append, alookup, if_neg h, List.append_eq, ih]

theorem alookup_eq_none_iff (fd : Nat) :
    ∀ l : List (Nat × Nat), alookup l fd = none ↔ fd ∉ l.map Prod.fst := by
  intro l
  induction l with
  | nil => simp [alookup]
  | cons p rest ih =>
    obtain ⟨k0, v0⟩ := p
    by_cases h : fd = k0
    · subst h
      simp [alookup]
    · simp [alookup, if_neg h, ih, h]

theorem alookup_mem {fd v : Nat} :
    ∀ {l : List (Nat × Nat)}, alookup l fd = some v → (fd, v) ∈ l := by
  intro l
  induction l with
  | nil => intro h; cases h
  | cons p rest ih =>
    obtain ⟨k0, v0⟩ := p
    intro h
    by_cases hfd : fd = k0
    · subst hfd
      rw [alookup, if_pos rfl] at h
      cases h
      exact List.mem_cons_self _ _
    · rw [alookup, if_neg hfd] at h
      exact List.mem_cons_of_mem _ (ih h)

theorem mem_alookup {fd v : Nat} :
    ∀ {l : List (Nat × Nat)}, (l.map Prod.fst).Nodup → (fd, v) ∈ l →
      alookup l fd = some v := by
  intro l
  induction l with
  | nil => intro _ h; cases h
  | cons p rest ih =>
    obtain ⟨k0, v0⟩ := p
    intro hnd hmem
    rcases List.mem_cons.mp hmem with hEq | hm
    · cases hEq
      rw [alookup, if_pos rfl]
    · have hfd : fd ≠ k0 := by
        intro hc
        subst hc
        have : fd ∈ rest.map Prod.fst := List.mem_map.mpr ⟨(fd, v), hm, rfl⟩
        exact (List.nodup_cons.mp (by simpa using hnd)).1 this
      rw [alookup, if_neg hfd]
      exact ih (List.nodup_cons.mp (by simpa using hnd)).2 hm

theorem map_fst_aset (k v : Nat) :
    ∀ l : List (Nat × Nat),
      (aset l k v).map Prod.fst =
        if alookup l k = none then l.map Prod.fst ++ [k] else l.map Prod.fst := by
  intro l
  induction l with
  | nil => simp [aset, alookup]
  | cons p rest ih =>
    obtain ⟨k0, v0⟩ := p
    by_cases h0 : k0 = k
    · subst h0
      simp [aset, alookup]
    · have hk : ¬k = k0 := fun hc => h0 hc.symm
      simp only [aset, if_neg h0, alookup, List.map_cons, ih, if_neg hk]
      by_cases h2 : alookup rest k = none <;> simp [h2]

theorem alookup_addRes (acc : List (Nat × Nat)) (bit fd fd2 : Nat) :
    alookup (addRes acc bit fd) fd2 =
      if fd2 = fd then some ((alookup acc fd).getD 0 ||| bit)
      else alookup acc fd2 := by
  unfold addRes
  cases h : alookup acc fd with
  | none =>
    rw [alookup_append]
    by_cases h2 : fd2 = fd
    · subst h2
      rw [h]
      simp [alookup]
    · cases h3 : alookup acc fd2 <;> simp [h2, h3, alookup]
  | some v =>
    rw [alookup_aset]
    by_cases h2 : fd2 = fd <;> simp [h2, h]

theorem map_fst_addRes (acc : List (Nat × Nat)) (bit fd : Nat) :
    (addRes acc bit fd).map Prod.fst =
      if alookup acc fd = none then acc.map Prod.fst ++ [fd]
      else acc.map Prod.fst := by
  unfold addRes
  cases h : alookup acc fd with
  | none => simp [h]
  | some v =>
    rw [map_fst_aset]
    simp [h]

theorem alookup_foldl_addRes (bit : Nat) :
    ∀ (L : List Nat) (acc : List (Nat × Nat)) (fd : Nat), L.Nodup →
      alookup (L.foldl (fun a f => addRes a bit f) acc) fd =
        if fd ∈ L then some ((alookup acc fd).getD 0 ||| bit)
        else alookup acc fd := by
  intro L
  induction L with
  | nil => intro acc fd _; simp
  | cons f L ih =>
    intro acc fd hnd
    rw [List.foldl_cons, ih (addRes acc bit f) fd (List.nodup_cons.mp hnd).2]
    by_cases hmem : fd ∈ L
    · rw [if_pos hmem, if_pos (List.mem_cons_of_mem f hmem)]
      have hne : fd ≠ f := fun hc => (List.nodup_cons.mp hnd).1 (hc ▸ hmem)
      rw [alookup_addRes, if_neg hne]
    · rw [if_neg hmem]
      by_cases hf : fd = f
      · rw [alookup_addRes, if_pos hf, if_pos (by simp [hf]), hf]
      · rw [alookup_addRes, if_neg hf, if_neg (by simp [hf, hmem])]

theorem nodup_map_fst_foldl_addRes (bit : Nat) :
    ∀ (L : List Nat) (acc : List (Nat × Nat)),
      (acc.map Prod.fst).Nodup →
      ((L.foldl (fun a f => addRes a bit f) acc).map Prod.fst).Nodup := by
  intro L
  induction L with
  | nil => intro acc h; simpa using h
  | cons f L ih =>
    intro acc h
    rw [List.foldl_cons]
    apply ih
    rw [map_fst_addRes]
    by_cases hl : alookup acc f = none
    · rw [if_pos hl]
      have hnm : f ∉ acc.map Prod.fst := (alookup_eq_none_iff f acc).mp hl
      simp [List.nodup_append, h, hnm]
    · rw [if_neg hl]
      exact h

theorem PCInv_mem_rset {st : PollCompat} (hinv : PCInv st) (fd : Nat) :
    fd ∈ st.rset ↔ maskBitAt st fd C_POLLIN = true := by
  obtain ⟨hnd, _, _, _, _, hr1, hr2, _, _, _, _⟩ := hinv
  constructor
  · exact hr1 fd
  · intro h
    unfold maskBitAt at h
    cases hreg : alookup st.registry fd with
    | none => rw [hreg] at h; cases h
    | some m =>
      rw [hreg] at h
      exact hr2 (fd, m) (alookup_mem hreg) (by simpa using h)

theorem PCInv_mem_wset {st : PollCompat} (hinv : PCInv st) (fd : Nat) :
    fd ∈ st.wset ↔ maskBitAt st fd C_POLLOUT = true := by
  obtain ⟨hnd, _, _, _, _, _, _, hw1, hw2, _, _⟩ := hinv
  constructor
  · exact hw1 fd
  · intro h
    unfold maskBitAt at h
    cases hreg : alookup st.registry fd with
    | none => rw [hreg] at h; cases h
    | some m =>
      rw [hreg] at h
      exact hw2 (fd, m) (alookup_mem hreg) (by simpa using h)

theorem PCInv_mem_xset {st : PollCompat} (hinv : PCInv st) (fd : Nat) :
    fd ∈ st.xset ↔ maskBitAt st fd C_POLLPRI = true := by
  obtain ⟨hnd, _, _, _, _, _, _, _, _, hx1, hx2⟩ := hinv
  constructor
  · exact hx1 fd
  · intro h
    unfold maskBitAt at h
    cases hreg : alookup st.registry fd with
    | none => rw [hreg] at h; cases h
    | some m =>
      rw [hreg] at h
      exact hx2 (fd, m) (alookup_mem hreg) (by simpa using h)

theorem alookup_pcPollOk {st : PollCompat} (hinv : PCInv st) (ready : Nat → Nat)
    (fd : Nat) :
    alookup (pcPollOk st ready) fd =
      match alookup st.registry fd with
      | some m => evtChain m (ready fd)
      | none => none := by
  have hr := hinv.2.1
  have hw := hinv.2.2.1
  have hx := hinv.2.2.2.1
  unfold pcPollOk
  rw [alookup_foldl_addRes _ _ _ _ (hx.filter _),
      alookup_foldl_addRes _ _ _ _ (hw.filter _),
      alookup_foldl_addRes _ _ _ _ (hr.filter _)]
  cases hreg : alookup st.registry fd with
  | none =>
    have hbR : fd ∉ st.rset := by
      rw [PCInv_mem_rset hinv fd]
      simp [maskBitAt, hreg]
    have hbW : fd ∉ st.wset := by
      rw [PCInv_mem_wset hinv fd]
      simp [maskBitAt, hreg]
    have hbX : fd ∉ st.xset := by
      rw [PCInv_mem_xset hinv fd]
      simp [maskBitAt, hreg]
    simp [List.mem_filter, hbR, hbW, hbX, alookup]
  | some m =>
    have hfR : fd ∈ List.filter (fun x => ready x &&& C_POLLIN != 0) st.rset ↔
        (m &&& C_POLLIN ≠ 0 ∧ ready fd &&& C_POLLIN ≠ 0) := by
      rw [List.mem_filter, PCInv_mem_rset hinv fd]
      simp [maskBitAt, hreg, and_comm]
    have hfW : fd ∈ List.filter (fun x => ready x &&& C_POLLOUT != 0) st.wset ↔
        (m &&& C_POLLOUT ≠ 0 ∧ ready fd &&& C_POLLOUT ≠ 0) := by
      rw [List.mem_filter, PCInv_mem_wset hinv fd]
      simp [maskBitAt, hreg, and_comm]
    have hfX : fd ∈ List.filter (fun x => ready x &&& C_POLLPRI != 0) st.xset ↔
        (m &&& C_POLLPRI ≠ 0 ∧ ready fd &&& C_POLLPRI ≠ 0) := by
      rw [List.mem_filter, PCInv_mem_xset hinv fd]
      simp [maskBitAt, hreg, and_comm]
    by_cases c1 : m &&& C_POLLIN ≠ 0 ∧ ready fd &&& C_POLLIN ≠ 0 <;>
      by_cases c2 : m &&& C_POLLOUT ≠ 0 ∧ ready fd &&& C_POLLOUT ≠ 0 <;>
      by_cases c3 : m &&& C_POLLPRI ≠ 0 ∧ ready fd &&& C_POLLPRI ≠ 0 <;>
      simp [evtChain, hfR, hfW, hfX, c1, c2, c3, alookup]

theorem evtChain_eq :
    ∀ m < 8, ∀ r < 8,
      evtChain m r = if m &&& r ≠ 0 then some (m &&& r) else none := by
  decide

theorem map_fst_nativePollOk_sublist (registry : List (Nat × Nat))
    (ready : Nat → Nat) :
    ((nativePollOk registry ready).map Prod.fst).Sublist
      (registry.map Prod.fst) := by
  unfold nativePollOk
  rw [List.map_map]
  have hfun : (Prod.fst ∘ fun p : Nat × Nat => (p.1, p.2 &&& ready p.1)) =
      Prod.fst := by
    funext p
    rfl
  rw [hfun]
  exact (List.filter_sublist _).map _

theorem alookup_nativePollOk (ready : Nat → Nat) :
    ∀ registry : List (Nat × Nat), (registry.map Prod.fst).Nodup → ∀ fd,
      alookup (nativePollOk registry ready) fd =
        match alookup registry fd with
        | some m => if m &&& ready fd ≠ 0 then some (m &&& ready fd) else none
        | none => none := by
  intro registry
  induction registry with
  | nil => intro _ fd; rfl
  | cons p rest ih =>
    obtain ⟨k, m⟩ := p
    intro hnd fd
    have hnd2 : k ∉ rest.map Prod.fst ∧ (rest.map Prod.fst).Nodup := by
      rw [List.map_cons] at hnd
      exact List.nodup_cons.mp hnd
    have hstep : nativePollOk ((k, m) :: rest) ready =
        if m &&& ready k ≠ 0 then (k, m &&& ready k) :: nativePollOk rest ready
        else nativePollOk rest ready := by
      unfold nativePollOk
      rw [List.filter_cons]
      by_cases hp : m &&& ready k ≠ 0 <;> simp [hp]
    rw [hstep]
    by_cases hfd : fd = k
    · subst hfd
      rw [show alookup ((fd, m) :: rest) fd = some m from by
        rw [alookup, if_pos rfl]]
      by_cases hp : m &&& ready fd ≠ 0
      · rw [if_pos hp, alookup, if_pos rfl]
        simp [hp]
      · rw [if_neg hp]
        have hnone : alookup (nativePollOk rest ready) fd = none := by
          rw [alookup_eq_none_iff]
          intro hmem
          exact hnd2.1 ((map_fst_nativePollOk_sublist rest ready).subset hmem)
        rw [hnone]
        simp [hp]
    · rw [show alookup ((k, m) :: rest) fd = alookup rest fd from by
        rw [alookup, if_neg hfd]]
      by_cases hp : m &&& ready k ≠ 0
      · rw [if_pos hp, alookup, if_neg hfd]
        exact ih hnd2.2 fd
      · rw [if_neg hp]
        exact ih hnd2.2 fd

theorem alookup_pc_eq_native {st : PollCompat} (hinv : PCInv st)
    (ready : Nat → Nat) (hready : ∀ fd, ready fd < 8) (fd : Nat) :
    alookup (pcPollOk st ready) fd =
      alookup (nativePollOk st.registry ready) fd := by
  rw [alookup_pcPollOk hinv ready fd,
      alookup_nativePollOk ready st.registry hinv.1 fd]
  cases hreg : alookup st.registry fd with
  | none => rfl
  | some m =>
    have hm : m < 8 := hinv.2.2.2.2.1 (fd, m) (alookup_mem hreg)
    simp only [evtChain_eq m hm (ready fd) (hready fd)]

theorem nodup_map_fst_pcPollOk (st : PollCompat) (ready : Nat → Nat) :
    ((pcPollOk st ready).map Prod.fst).Nodup := by
  unfold pcPollOk
  exact nodup_map_fst_foldl_addRes _ _ _
    (nodup_map_fst_foldl_addRes _ _ _
      (nodup_map_fst_foldl_addRes _ _ _ (by simp)))

theorem pcPollOk_perm_native {st : PollCompat} (hinv : PCInv st)
    (ready : Nat → Nat) (hready : ∀ fd, ready fd < 8) :
    (pcPollOk st ready).Perm (nativePollOk st.registry ready) := by
  have hnd1 : ((pcPollOk st ready).map Prod.fst).Nodup :=
    nodup_map_fst_pcPollOk st ready
  have hnd2 : ((nativePollOk st.registry ready).map Prod.fst).Nodup :=
    hinv.1.sublist (map_fst_nativePollOk_sublist st.registry ready)
  refine (List.perm_ext_iff_of_nodup hnd1.of_map hnd2.of_map).mpr ?_
  rintro ⟨afd, av⟩
  constructor
  · intro hmem
    have hl := mem_alookup hnd1 hmem
    rw [alookup_pc_eq_native hinv ready hready afd] at hl
    exact alookup_mem hl
  · intro hmem
    have hl := mem_alookup hnd2 hmem
    rw [← alookup_pc_eq_native hinv ready hready afd] at hl
    exact alookup_mem hl

theorem aset_of_alookup_none (k v : Nat) :
    ∀ l : List (Nat × Nat), alookup l k = none → aset l k v = l ++ [(k, v)] := by
  intro l
  induction l with
  | nil => intro _; rfl
  | cons p rest ih =>
    obtain ⟨k0, v0⟩ := p
    intro h
    have hk : ¬k = k0 := by
      intro hc
      rw [alookup, if_pos hc] at h
      cases h
    have hk0 : ¬k0 = k := fun hc => hk hc.symm
    rw [alookup, if_neg hk] at h
    rw [aset, if_neg hk0, ih h, List.cons_append]

theorem mem_sinsert (l : List Nat) (x y : Nat) :
    y ∈ sinsert l x ↔ y ∈ l ∨ y = x := by
  unfold sinsert
  by_cases h : x ∈ l
  · rw [if_pos h]
    constructor
    · exact Or.inl
    · rintro (hy | rfl)
      · exact hy
      · exact h
  · rw [if_neg h]
    simp

theorem nodup_sinsert (l : List Nat) (x : Nat) (h : l.Nodup) :
    (sinsert l x).Nodup := by
  unfold sinsert
  by_cases hx : x ∈ l
  · rwa [if_pos hx]
  · rw [if_neg hx]
    simp [List.nodup_append, h, hx]

theorem aremove_sublist (k : Nat) :
    ∀ l : List (Nat × Nat), (aremove l k).Sublist l := by
  intro l
  induction l with
  | nil => exact List.Sublist.refl _
  | cons p rest ih =>
    obtain ⟨k0, v0⟩ := p
    rw [aremove]
    by_cases h : k0 = k
    · rw [if_pos h]
      exact (List.sublist_cons_self _ _)
    · rw [if_neg h]
      exact ih.cons₂ _

theorem alookup_aremove (k fd : Nat) :
    ∀ l : List (Nat × Nat), (l.map Prod.fst).Nodup →
      alookup (aremove l k) fd = if fd = k then none else alookup l fd := by
  intro l
  induction l with
  | nil => intro _; simp [aremove, alookup]
  | cons p rest ih =>
    obtain ⟨k0, v0⟩ := p
    intro hnd
    have hnd2 : k0 ∉ rest.map Prod.fst ∧ (rest.map Prod.fst).Nodup := by
      rw [List.map_cons] at hnd
      exact List.nodup_cons.mp hnd
    rw [aremove]
    by_cases h0 : k0 = k
    · subst h0
      rw [if_pos rfl]
      by_cases hfd : fd = k0
      · subst hfd
        rw [if_pos rfl]
        rw [alookup_eq_none_iff]
        exact hnd2.1
      · rw [if_neg hfd, alookup, if_neg hfd]
    · rw [if_neg h0, alookup]
      by_cases hfd : fd = k0
      · subst hfd
        have hk : fd ≠ k := fun hc => h0 (hc ▸ rfl)
        rw [if_pos rfl, if_neg hk, alookup, if_pos rfl]
      · rw [if_neg hfd, ih hnd2.2, alookup, if_neg hfd]

theorem mem_aremove_ne (k : Nat) :
    ∀ l : List (Nat × Nat), (l.map Prod.fst).Nodup →
      ∀ p ∈ aremove l k, p ∈ l ∧ p.1 ≠ k := by
  intro l
  induction l with
  | nil => intro _ p hp; cases hp
  | cons q rest ih =>
    obtain ⟨k0, v0⟩ := q
    intro hnd p hp
    have hnd2 : k0 ∉ rest.map Prod.fst ∧ (rest.map Prod.fst).Nodup := by
      rw [List.map_cons] at hnd
      exact List.nodup_cons.mp hnd
    rw [aremove] at hp
    by_cases h0 : k0 = k
    · subst h0
      rw [if_pos rfl] at hp
      refine ⟨List.mem_cons_of_mem _ hp, ?_⟩
      intro hc
      exact hnd2.1 (List.mem_map.mpr ⟨p, hp, hc⟩)
    · rw [if_neg h0] at hp
      rcases List.mem_cons.mp hp with rfl | hm
      · exact ⟨List.mem_cons_self _ _, h0⟩
      · obtain ⟨hmem, hne⟩ := ih hnd2.2 p hm
        exact ⟨List.mem_cons_of_mem _ hmem, hne⟩

theorem pcRegister_registry (st : PollCompat) (fd mask : Nat)
    (hfresh : alookup st.registry fd = none) :
    (pcRegister st fd mask).registry = st.registry ++ [(fd, mask)] :=
  aset_of_alookup_none fd mask st.registry hfresh

theorem maskBitAt_register (st : PollCompat) (fd mask : Nat)
    (hfresh : alookup st.registry fd = none) (fd2 bit : Nat) :
    maskBitAt (pcRegister st fd mask) fd2 bit =
      if fd2 = fd then (mask &&& bit != 0) else maskBitAt st fd2 bit := by
  unfold maskBitAt
  rw [pcRegister_registry st fd mask hfresh, alookup_append]
  by_cases h : fd2 = fd
  · subst h
    rw [hfresh]
    simp [alookup]
  · cases h2 : alookup st.registry fd2 <;> simp [h2, alookup, h]

theorem register_set_nodup (oldset : List Nat) (h : oldset.Nodup)
    (fd mask bit : Nat) :
    (if mask &&& bit ≠ 0 then sinsert oldset fd else oldset).Nodup := by
  split
  · exact nodup_sinsert _ _ h
  · exact h

theorem register_set_forward (st : PollCompat) (fd mask : Nat)
    (hfresh : alookup st.registry fd = none) (bit : Nat) (oldset : List Nat)
    (h1 : ∀ x ∈ oldset, maskBitAt st x bit = true) :
    ∀ x ∈ (if mask &&& bit ≠ 0 then sinsert oldset fd else oldset),
      maskBitAt (pcRegister st fd mask) x bit = true := by
  intro x hx
  rw [maskBitAt_register st fd mask hfresh]
  by_cases hxf : x = fd
  · subst hxf
    rw [if_pos rfl]
    by_cases hb : mask &&& bit ≠ 0
    · simpa using hb
    · rw [if_neg hb] at hx
      have hcontra := h1 x hx
      unfold maskBitAt at hcontra
      rw [hfresh] at hcontra
      cases hcontra
  · rw [if_neg hxf]
    apply h1
    by_cases hb : mask &&& bit ≠ 0
    · rw [if_pos hb] at hx
      rcases (mem_sinsert _ _ _).mp hx with h | h
      · exact h
      · exact absurd h hxf
    · rwa [if_neg hb] at hx

theorem register_set_reverse (st : PollCompat) (fd mask : Nat)
    (hfresh : alookup st.registry fd = none) (bit : Nat) (oldset : List Nat)
    (h2 : ∀ p ∈ st.registry, p.2 &&& bit ≠ 0 → p.1 ∈ oldset) :
    ∀ p ∈ (pcRegister st fd mask).registry, p.2 &&& bit ≠ 0 →
      p.1 ∈ (if mask &&& bit ≠ 0 then sinsert oldset fd else oldset) := by
  intro p hp hbit
  rw [pcRegister_registry st fd mask hfresh] at hp
  rcases List.mem_append.mp hp with h | h
  · have hmem := h2 p h hbit
    split
    · exact (mem_sinsert _ _ _).mpr (Or.inl hmem)
    · exact hmem
  · have hpe : p = (fd, mask) := by simpa using h
    subst hpe
    rw [if_pos hbit]
    exact (mem_sinsert _ _ _).mpr (Or.inr rfl)

theorem PCInv_register {st : PollCompat} (hinv : PCInv st) (fd mask : Nat)
    (hfresh : alookup st.registry fd = none) (hm : mask < 8) :
    PCInv (pcRegister st fd mask) := by
  obtain ⟨hnd, hr, hw, hx, hms, hr1, hr2, hw1, hw2, hx1, hx2⟩ := hinv
  have hfd_not : fd ∉ st.registry.map Prod.fst :=
    (alookup_eq_none_iff _ _).mp hfresh
  refine ⟨?_, ?_, ?_, ?_, ?_, ?_, ?_, ?_, ?_, ?_, ?_⟩
  · rw [pcRegister_registry st fd mask hfresh]
    simp [List.nodup_append, hnd, hfd_not]
  · exact register_set_nodup st.rset hr fd mask C_POLLIN
  · exact register_set_nodup st.wset hw fd mask C_POLLOUT
  · exact register_set_nodup st.xset hx fd mask C_POLLPRI
  · intro p hp
    rw [pcRegister_registry st fd mask hfresh] at hp
    rcases List.mem_append.mp hp with h | h
    · exact hms p h
    · have hpe : p = (fd, mask) := by simpa using h
      subst hpe
      exact hm
  · exact register_set_forward st fd mask hfresh C_POLLIN st.rset hr1
  · exact register_set_reverse st fd mask hfresh C_POLLIN st.rset hr2
  · exact register_set_forward st fd mask hfresh C_POLLOUT st.wset hw1
  · exact register_set_reverse st fd mask hfresh C_POLLOUT st.wset hw2
  · exact register_set_forward st fd mask hfresh C_POLLPRI st.xset hx1
  · exact register_set_reverse st fd mask hfresh C_POLLPRI st.xset hx2

theorem PCInv_unregister {st st' : PollCompat} (hinv : PCInv st) (fd : Nat)
    (h : pcUnregister st fd = some st') : PCInv st' := by
  obtain ⟨hnd, hr, hw, hx, hms, hr1, hr2, hw1, hw2, hx1, hx2⟩ := hinv
  unfold pcUnregister at h
  cases hreg : alookup st.registry fd with
  | none => rw [hreg] at h; cases h
  | some mask =>
    rw [hreg] at h
    have hst : st' =
        { registry := aremove st.registry fd
          rset := if mask &&& C_POLLIN ≠ 0 then st.rset.erase fd else st.rset
          wset := if mask &&& C_POLLOUT ≠ 0 then st.wset.erase fd else st.wset
          xset := if mask &&& C_POLLPRI ≠ 0 then st.xset.erase fd else st.xset } := by
      cases h
      rfl
    subst hst
    have hnd2 : ((aremove st.registry fd).map Prod.fst).Nodup :=
      hnd.sublist ((aremove_sublist fd st.registry).map Prod.fst)
    have hlook : ∀ fd2, alookup (aremove st.registry fd) fd2 =
        if fd2 = fd then none else alookup st.registry fd2 :=
      fun fd2 => alookup_aremove fd fd2 st.registry hnd
    have hmask : ∀ fd2 bit,
        maskBitAt { registry := aremove st.registry fd
                    rset := if mask &&& C_POLLIN ≠ 0 then st.rset.erase fd else st.rset
                    wset := if mask &&& C_POLLOUT ≠ 0 then st.wset.erase fd else st.wset
                    xset := if mask &&& C_POLLPRI ≠ 0 then st.xset.erase fd else st.xset }
            fd2 bit =
          if fd2 = fd then false else maskBitAt st fd2 bit := by
      intro fd2 bit
      unfold maskBitAt
      simp only
      rw [hlook fd2]
      by_cases h2 : fd2 = fd
      · rw [if_pos h2, if_pos h2]
      · rw [if_neg h2, if_neg h2]
    have hfwd : ∀ (bit : Nat) (oldset : List Nat), oldset.Nodup →
        (∀ x ∈ oldset, maskBitAt st x bit = true) →
        ∀ x ∈ (if mask &&& bit ≠ 0 then oldset.erase fd else oldset),
          (if x = fd then false else maskBitAt st x bit) = true := by
      intro bit oldset hset h1 x hxm
      by_cases hb : mask &&& bit ≠ 0
      · rw [if_pos hb] at hxm
        rcases (hset.mem_erase_iff).mp hxm with ⟨hne, hmem⟩
        rw [if_neg hne]
        exact h1 x hmem
      · rw [if_neg hb] at hxm
        have hne : x ≠ fd := by
          intro hc
          subst hc
          have hm2 := h1 x hxm
          unfold maskBitAt at hm2
          rw [hreg] at hm2
          simp at hm2
          exact hb hm2
        rw [if_neg hne]
        exact h1 x hxm
    have hrev : ∀ (bit : Nat) (oldset : List Nat), oldset.Nodup →
        (∀ p ∈ st.registry, p.2 &&& bit ≠ 0 → p.1 ∈ oldset) →
        ∀ p ∈ aremove st.registry fd, p.2 &&& bit ≠ 0 →
          p.1 ∈ (if mask &&& bit ≠ 0 then oldset.erase fd else oldset) := by
      intro bit oldset hset h2 p hp hbit
      obtain ⟨hmem, hne⟩ := mem_aremove_ne fd st.registry hnd p hp
      have hin := h2 p hmem hbit
      by_cases hb : mask &&& bit ≠ 0
      · rw [if_pos hb]
        exact (hset.mem_erase_iff).mpr ⟨hne, hin⟩
      · rw [if_neg hb]
        exact hin
    refine ⟨hnd2, ?_, ?_, ?_, ?_, ?_, ?_, ?_, ?_, ?_, ?_⟩
    · show (if mask &&& C_POLLIN ≠ 0 then st.rset.erase fd else st.rset).Nodup
      split
      · exact hr.erase fd
      · exact hr
    · show (if mask &&& C_POLLOUT ≠ 0 then st.wset.erase fd else st.wset).Nodup
      split
      · exact hw.erase fd
      · exact hw
    · show (if mask &&& C_POLLPRI ≠ 0 then st.xset.erase fd else st.xset).Nodup
      split
      · exact hx.erase fd
      · exact hx
    · intro p hp
      exact hms p (mem_aremove_ne fd st.registry hnd p hp).1
    · intro x hxm
      rw [hmask x C_POLLIN]
      exact hfwd C_POLLIN st.rset hr hr1 x hxm
    · exact hrev C_POLLIN st.rset hr hr2
    · intro x hxm
      rw [hmask x C_POLLOUT]
      exact hfwd C_POLLOUT st.wset hw hw1 x hxm
    · exact hrev C_POLLOUT st.wset hw hw2
    · intro x hxm
      rw [hmask x C_POLLPRI]
      exact hfwd C_POLLPRI st.xset hx hx1 x hxm
    · exact hrev C_POLLPRI st.xset hx hx2

theorem PCInv_modify {st st' : PollCompat} (hinv : PCInv st) (fd mask : Nat)
    (hm : mask < 8) (h : pcModify st fd mask = some st') : PCInv st' := by
  unfold pcModify at h
  cases hu : pcUnregister st fd with
  | none => rw [hu] at h; cases h
  | some st2 =>
    rw [hu] at h
    have hst : st' = pcRegister st2 fd mask := by
      cases h
      rfl
    subst hst
    have hinv2 := PCInv_unregister hinv fd hu
    have hfresh : alookup st2.registry fd = none := by
      unfold pcUnregister at hu
      cases hreg : alookup st.registry fd with
      | none => rw [hreg] at hu; cases hu
      | some m0 =>
        rw [hreg] at hu
        cases hu
        simp only
        rw [alookup_aremove fd fd st.registry hinv.1, if_pos rfl]
    exact PCInv_register hinv2 fd mask hfresh hm

theorem PCInv_init : PCInv pcInit := by
  unfold PCInv pcInit
  simp

theorem PCInv_validRun :
    ∀ (ops : List PCOp) (st st' : PollCompat), PCInv st →
      validRun st ops = some st' → PCInv st' := by
  intro ops
  induction ops with
  | nil =>
    intro st st' hinv h
    cases h
    exact hinv
  | cons op rest ih =>
    intro st st' hinv h
    cases op with
    | reg fd mask =>
      rw [show validRun st (PCOp.reg fd mask :: rest) =
          (if alookup st.registry fd = none ∧ mask < 8 then
            validRun (pcRegister st fd mask) rest else none) from rfl] at h
      by_cases hc : alookup st.registry fd = none ∧ mask < 8
      · rw [if_pos hc] at h
        exact ih _ _ (PCInv_register hinv fd mask hc.1 hc.2) h
      · rw [if_neg hc] at h
        cases h
    | mod fd mask =>
      rw [show validRun st (PCOp.mod fd mask :: rest) =
          (if mask < 8 then
            (pcModify st fd mask).bind (fun st2 => validRun st2 rest)
          else none) from rfl] at h
      by_cases hc : mask < 8
      · rw [if_pos hc] at h
        cases hmo : pcModify st fd mask with
        | none => rw [hmo] at h; cases h
        | some st2 =>
          rw [hmo] at h
          exact ih _ _ (PCInv_modify hinv fd mask hc hmo) h
      · rw [if_neg hc] at h
        cases h
    | unreg fd =>
      rw [show validRun st (PCOp.unreg fd :: rest) =
          (pcUnregister st fd).bind (fun st2 => validRun st2 rest) from rfl] at h
      cases hu : pcUnregister st fd with
      | none => rw [hu] at h; cases h
      | some st2 =>
        rw [hu] at h
        exact ih _ _ (PCInv_unregister hinv fd hu) h

/-- C7 counterexample: with fd 3 registered for read and readable, a poll with
an absent (None) timeout makes the fallback call select with no arguments at
all, raising TypeError, while the native poller accepts the absent timeout
and reports the ready pair; a zero timeout errors identically.  The fallback
is therefore not behaviourally indistinguishable for every timeout
argument. -/
theorem pcPoll_falsy_timeout_counterexample :
    pcPoll (pcRegister pcInit 3 C_POLLIN) (fun _ => C_POLLIN) none
        = .error () ∧
    nativePoll (pcRegister pcInit 3 C_POLLIN).registry (fun _ => C_POLLIN) none
        = .ok [(3, 1)] ∧
    pcPoll (pcRegister pcInit 3 C_POLLIN) (fun _ => C_POLLIN) (some 0)
        = .error () :=
  ⟨rfl, rfl, rfl⟩

/-- C7 amended: for every state reached from the empty poller by a sequence
of register, modify and unregister operations in which register is applied
only to not-currently-registered fds and all masks lie within the three event
bits, and for every positive timeout, the fallback poll succeeds and returns
the same readiness pairs (as a permutation) the native poller would return
from the same registry; with an absent or zero timeout the fallback instead
raises TypeError. -/
theorem pcPoll_matches_native (ops : List PCOp) (st : PollCompat)
    (hrun : validRun pcInit ops = some st) (ready : Nat → Nat)
    (hready : ∀ fd, ready fd < 8) (t : Nat) (ht : t ≠ 0) :
    pcPoll st ready (some t) = .ok (pcPollOk st ready) ∧
    nativePoll st.registry ready (some t) = .ok (nativePollOk st.registry ready) ∧
    (pcPollOk st ready).Perm (nativePollOk st.registry ready) := by
  have hinv : PCInv st := PCInv_validRun ops pcInit st PCInv_init hrun
  refine ⟨?_, rfl, pcPollOk_perm_native hinv ready hready⟩
  cases t with
  | zero => exact absurd rfl ht
  | succ n => rfl

/-- C7 amended witness: the singleton run that registers fd 3 for read. -/
theorem pcPoll_matches_native_witness :
    pcPoll (pcRegister pcInit 3 C_POLLIN) (fun _ => C_POLLIN) (some 100)
        = .ok (pcPollOk (pcRegister pcInit 3 C_POLLIN) (fun _ => C_POLLIN)) ∧
    nativePoll (pcRegister pcInit 3 C_POLLIN).registry (fun _ => C_POLLIN)
        (some 100)
        = .ok (nativePollOk (pcRegister pcInit 3 C_POLLIN).registry
            (fun _ => C_POLLIN)) ∧
    (pcPollOk (pcRegister pcInit 3 C_POLLIN) (fun _ => C_POLLIN)).Perm
      (nativePollOk (pcRegister pcInit 3 C_POLLIN).registry
        (fun _ => C_POLLIN)) :=
  pcPoll_matches_native [PCOp.reg 3 C_POLLIN] (pcRegister pcInit 3 C_POLLIN)
    rfl (fun _ => C_POLLIN) (fun _ => (by decide : C_POLLIN < 8)) 100 (by decide)
